import Mathlib

/-!
Verification development for a dependency-graph tool (`main.py`).

The program has four algorithmic parts, each embedded below directly from
the source:

* `parse_direct_deps` — extracts direct dependency names from manifest text
  (regex-driven line classification, `main.py` lines 105-130);
* `parse_test_graph` — loads a hand-authored test graph, validating that
  every token is a single uppercase ASCII letter (lines 145-173);
* `build_bfs_graph` / `bfsRun` — depth-bounded breadth-first traversal over
  a lazily queried dependency relation (lines 175-190);
* `print_tree` / `renderNode` — indented tree rendering with cycle and
  revisit annotation (lines 192-211), plus the total-node count computed at
  the end of `main` (lines 284-287).

Python strings are modelled as Lean `String` values, manipulated through
their underlying `List Char` so every definition evaluates by kernel
reduction.  Python `set` values are modelled as duplicate-free lists built
with `insDedup` (insertion-order sets); Python `dict` values as association
lists `List (String × List String)`.
-/

/-- A dependency relation: node identifier to its list of direct
dependencies (association list modelling the Python `dict`). -/
abbrev Graph := List (String × List String)

/-- Model of Python `set.add`: append the element unless already present. -/
def insDedup (l : List String) (x : String) : List String :=
  if x ∈ l then l else l ++ [x]

/-- Deduplicate a list, keeping first occurrences (models building a
Python `set` from an iterable). -/
def dedup (l : List String) : List String :=
  l.foldl insDedup []

/-- Model of Python `dict.get(k, [])` / `deps.get(name, set())`. -/
def dictGet (g : Graph) (n : String) : List String :=
  (List.lookup n g).getD []

/-- Split a character list at every occurrence of `c` (models Python
`str.splitlines` for `c = newline`; the empty text gives one empty line
where Python gives none, but blank lines are skipped by every caller). -/
def splitOnChar (c : Char) : List Char → List (List Char)
  | [] => [[]]
  | x :: xs =>
    match splitOnChar c xs with
    | [] => [[]]
    | r :: rs => if x == c then [] :: r :: rs else (x :: r) :: rs

/-- Model of Python `str.strip()` (drop leading and trailing whitespace). -/
def pyTrim (cs : List Char) : List Char :=
  ((cs.dropWhile Char.isWhitespace).reverse.dropWhile Char.isWhitespace).reverse

/-- Model of Python `str.strip(t)` for a single character `t`. -/
def stripEndsC (t : Char) (cs : List Char) : List Char :=
  ((cs.dropWhile (fun x => x == t)).reverse.dropWhile (fun x => x == t)).reverse

/-- The ASCII apostrophe character (code 39), used by the source's
`strip("'")` calls. -/
def quoteChar : Char := Char.ofNat 39

/-- `startsWithL pat cs` models Python `cs.startswith(pat)`. -/
def startsWithL : List Char → List Char → Bool
  | [], _ => true
  | _ :: _, [] => false
  | p :: ps, c :: cs => p == c && startsWithL ps cs

/-- `endsWithL pat cs` models Python `cs.endswith(pat)`. -/
def endsWithL (pat cs : List Char) : Bool :=
  startsWithL pat.reverse cs.reverse

/-- Everything after the first `.` (models Python `s.split('.', 1)[1]`
when a dot is present, and gives `[]` otherwise). -/
def afterFirstDot (cs : List Char) : List Char :=
  (cs.dropWhile (fun c => !(c == '.'))).drop 1

/-- The character class `[A-Za-z0-9_\-\.]` of the source's `KV_RE`. -/
def identChar (c : Char) : Bool :=
  c.isAlpha || c.isDigit || c == '_' || c == '-' || c == '.'

/-- Match of `SECTION_RE = ^\s*\[([^\]]+)\]\s*$` against an already
stripped line: the line is `[body]` with `body` nonempty and free of `]`;
returns the captured `body`. -/
def sectionBody (cs : List Char) : Option (List Char) :=
  match cs with
  | '[' :: rest =>
    match rest.reverse with
    | ']' :: revBody =>
      let body := revBody.reverse
      if body.isEmpty || body.contains ']' then none else some body
    | _ => none
  | _ => none

/-- Match of `KV_RE = ^\s*([A-Za-z0-9_\-\.]+)\s*=` against an already
stripped line: a nonempty identifier-character prefix followed (after
optional whitespace) by `=`; returns the captured identifier. -/
def kvIdent (cs : List Char) : Option (List Char) :=
  let ident := cs.takeWhile identChar
  let rest := (cs.drop ident.length).dropWhile Char.isWhitespace
  if ident.isEmpty then none
  else
    match rest with
    | '=' :: _ => some ident
    | _ => none

/-- One iteration of the line loop of `parse_direct_deps` (main.py
lines 111-129).  State: (accumulated dependency set, current section). -/
def depLine (st : List String × Option (List Char)) (ln : List Char) :
    List String × Option (List Char) :=
  let line := pyTrim (ln.takeWhile (fun c => !(c == '#')))
  if line.isEmpty then st
  else
    match sectionBody line with
    | some body =>
      let cur := pyTrim body
      let deps :=
        if startsWithL ("dependencies.".data) cur then
          let part := stripEndsC quoteChar (stripEndsC '"' (pyTrim (afterFirstDot cur)))
          if part.isEmpty then st.1 else insDedup st.1 (String.mk part)
        else st.1
      (deps, some cur)
    | none =>
      let active :=
        match st.2 with
        | some cur =>
          cur == ("dependencies".data) ||
            (!(cur.isEmpty) && endsWithL (".dependencies".data) cur)
        | none => false
      if active then
        match kvIdent line with
        | some ident =>
          let key := stripEndsC quoteChar (stripEndsC '"' (pyTrim ident))
          if key.isEmpty then st else (insDedup st.1 (String.mk key), st.2)
        | none => st
      else st

/-- `parse_direct_deps` (main.py lines 108-130): scan the manifest text
line by line, collecting dependency names from a `[dependencies]` (or
`*.dependencies`) section's keys and from `[dependencies.<name>]`
headers.  Total: returns the accumulated set for every input. -/
def parse_direct_deps (toml_text : String) : List String :=
  ((splitOnChar '\n' toml_text.data).foldl depLine ([], none)).1

/-- `^[A-Z]$` (the token pattern of `parse_test_graph`): exactly one
uppercase ASCII letter. -/
def isUpperTok (s : String) : Bool :=
  match s.data with
  | [c] => 'A' ≤ c && c ≤ 'Z'
  | _ => false

/-- Python `line.split(':', 1)`: the part before the first `:` and the
part after it. -/
def splitColon (cs : List Char) : List Char × List Char :=
  (cs.takeWhile (fun c => !(c == ':')), (cs.dropWhile (fun c => !(c == ':'))).drop 1)

/-- Python `str.split()` (whitespace split, dropping empty tokens);
`acc` holds the current token reversed. -/
def splitWSAux : List Char → List Char → List (List Char)
  | [], acc => if acc.isEmpty then [] else [acc.reverse]
  | c :: cs, acc =>
    if c.isWhitespace then
      if acc.isEmpty then splitWSAux cs [] else acc.reverse :: splitWSAux cs []
    else splitWSAux cs (c :: acc)

/-- Python `str.split()` on a character list. -/
def pySplitWS (cs : List Char) : List (List Char) :=
  splitWSAux cs []

/-- Python `dict` assignment `g[k] = v`: overwrite an existing entry or
append a new one. -/
def graphSet (g : Graph) (k : String) (v : List String) : Graph :=
  if k ∈ g.map Prod.fst then g.map (fun p => if p.1 = k then (k, v) else p)
  else g ++ [(k, v)]

/-- The node-name error message of `parse_test_graph` (main.py lines
160 and 169). -/
def badNodeMsg (tok : String) : String :=
  "Неверное имя узла \u0027" ++ tok ++
    "\u0027 в тестовом файле. Ожидается одна заглавная буква A..Z."

/-- The dependency-name error message of `parse_test_graph` (main.py
line 164). -/
def badDepMsg (tok node : String) : String :=
  "Неверное имя зависимости \u0027" ++ tok ++ "\u0027 у узла \u0027" ++ node ++
    "\u0027. Ожидается одна заглавная буква A..Z."

/-- The line loop of `parse_test_graph` (main.py lines 152-170), over the
file's lines; stops at the first malformed token. -/
def parseGraphLines : List String → Graph → Except String Graph
  | [], g => Except.ok g
  | raw :: more, g =>
    let line := pyTrim (raw.data.takeWhile (fun c => !(c == '#')))
    if line.isEmpty then parseGraphLines more g
    else if line.contains ':' then
      let lr := splitColon line
      let left := String.mk (pyTrim lr.1)
      if !(isUpperTok left) then Except.error (badNodeMsg left)
      else
        let depToks := ((pySplitWS lr.2).map (fun p => String.mk (pyTrim p))).filter
          (fun p => !(p == ""))
        match depToks.find? (fun t => !(isUpperTok t)) with
        | some bad => Except.error (badDepMsg bad left)
        | none => parseGraphLines more (graphSet g left (dedup depToks))
    else
      let node := String.mk (pyTrim line)
      if !(isUpperTok node) then Except.error (badNodeMsg node)
      else parseGraphLines more (graphSet g node [])

/-- `parse_test_graph` (main.py lines 145-173) over the file's text
lines (file-system access is outside the model); any error raised inside
the loop is re-wrapped with the file path, as in the source's
`except` clause. -/
def parse_test_graph (path : String) (lines : List String) : Except String Graph :=
  match parseGraphLines lines [] with
  | Except.ok g => Except.ok g
  | Except.error e =>
    Except.error ("Ошибка при чтении тестового графа " ++ path ++ ": " ++ e)

/-- Result of a BFS run: the built relation, the visited set, the
remaining queue, and the list of nodes on which the query callback was
invoked (in call order). -/
structure BfsOut where
  graph : Graph
  visited : List String
  queue : List (String × Nat)
  calls : List String

/-- `graph[node].update(deps)` on a `defaultdict(set)`: union `ds` into
the (possibly missing, then empty) entry of `n`. -/
def graphInsert (g : Graph) (n : String) (ds : List String) : Graph :=
  match List.lookup n g with
  | some old => g.map (fun p => if p.1 = n then (p.1, ds.foldl insDedup old) else p)
  | none => g ++ [(n, ds.foldl insDedup [])]

/-- The `while queue` loop of `build_bfs_graph` (main.py lines 179-189),
with an explicit fuel argument (the loop has no structural recursion; a
sufficient fuel is computed below, and `bfsRun_queue_nil` proves the
queue is in fact exhausted).  `get_deps` results are deduplicated,
modelling that the Python callback returns a set. -/
def bfsRun (get_deps : String → List String) (maxDepth : Nat) :
    Nat → List (String × Nat) → List String → Graph → List String → BfsOut
  | 0, queue, visited, graph, calls => ⟨graph, visited, queue, calls⟩
  | _ + 1, [], visited, graph, calls => ⟨graph, visited, [], calls⟩
  | fuel + 1, (node, depth) :: rest, visited, graph, calls =>
    if node ∈ visited then bfsRun get_deps maxDepth fuel rest visited graph calls
    else
      let deps := dedup (get_deps node)
      let visited' := visited ++ [node]
      let graph' := graphInsert graph node deps
      let enq :=
        if depth < maxDepth then
          (deps.filter (fun x => decide (x ∉ visited'))).map (fun x => (x, depth + 1))
        else []
      bfsRun get_deps maxDepth fuel (rest ++ enq) visited' graph' (calls ++ [node])

/-- One expansion step of the reachable universe: insert the
dependencies of every current member. -/
def expandU (get_deps : String → List String) (acc : List String) : List String :=
  acc.foldl (fun a n => (dedup (get_deps n)).foldl insDedup a) acc

/-- All nodes reachable from `root` in at most `k` query hops (as a
duplicate-free list); used to bound the work of the BFS loop. -/
def listUniv (get_deps : String → List String) (root : String) : Nat → List String
  | 0 => [root]
  | k + 1 => expandU get_deps (listUniv get_deps root k)

/-- Work contributed by one unvisited node: its dequeue plus its
enqueued dependencies. -/
def nodeWeight (get_deps : String → List String) (n : String) : Nat :=
  1 + (dedup (get_deps n)).length

/-- Fuel that provably exhausts the BFS queue: one initial queue entry
plus the weight of every node reachable within `maxDepth` hops. -/
def bfsFuel (get_deps : String → List String) (root : String) (maxDepth : Nat) : Nat :=
  1 + ((listUniv get_deps root maxDepth).map (nodeWeight get_deps)).sum

/-- The full BFS run of `build_bfs_graph` (main.py lines 175-190),
starting from queue `[(root, 0)]` with empty relation and visited set. -/
def build_bfs_run (root : String) (get_deps : String → List String) (maxDepth : Nat) :
    BfsOut :=
  bfsRun get_deps maxDepth (bfsFuel get_deps root maxDepth) [(root, 0)] [] [] []

/-- `build_bfs_graph` (main.py lines 175-190): the relation built by the
depth-bounded BFS. -/
def build_bfs_graph (root : String) (get_deps : String → List String) (maxDepth : Nat) :
    Graph :=
  (build_bfs_run root get_deps maxDepth).graph

/-- The test-mode query callback (main.py lines 263-264):
`deps.get(name, set())`. -/
def relFun (rel : Graph) : String → List String :=
  fun name => dictGet rel name

/-- `n` is reachable from `root` in at most `k` dependency hops (the
spec-side notion of BFS distance at most `k`). -/
def ReachableWithin (get_deps : String → List String) (root : String) :
    Nat → String → Prop
  | 0, n => n = root
  | k + 1, n =>
    ReachableWithin get_deps root k n ∨
      ∃ m, ReachableWithin get_deps root k m ∧ n ∈ get_deps m

/-- Remaining work of a BFS state: queue length plus the weight of every
not-yet-visited node of the universe `u`.  Strictly decreases at every
loop iteration. -/
def bfsWork (get_deps : String → List String) (u : List String)
    (queue : List (String × Nat)) (visited : List String) : Nat :=
  queue.length + ((u.filter (fun n => decide (n ∉ visited))).map (nodeWeight get_deps)).sum

/-- Python `'    ' * depth + ('└─ ' if depth > 0 else '') + node + note`
(main.py lines 196-204): one rendered line. -/
def lineFor (depth : Nat) (node : String) (note : String) : String :=
  String.mk (List.replicate (4 * depth) ' ') ++
    (if 0 < depth then "└─ " else "") ++ node ++ note

/-- Lexicographic (code point) comparison of character lists, modelling
Python string `<`. -/
def charsLt : List Char → List Char → Bool
  | [], [] => false
  | [], _ :: _ => true
  | _ :: _, [] => false
  | a :: as, b :: bs => if a < b then true else if b < a then false else charsLt as bs

/-- Python string `<=` (total order used by `sorted`). -/
def strLeB (a b : String) : Bool :=
  !(charsLt b.data a.data)

/-- Stable insertion into a sorted list (helper for `sortNodes`). -/
def insertSorted (x : String) : List String → List String
  | [] => [x]
  | y :: ys => if strLeB x y then x :: y :: ys else y :: insertSorted x ys

/-- Python `sorted` on a list of node names: stable, lexicographic by
code point. -/
def sortNodes : List String → List String
  | [] => []
  | x :: xs => insertSorted x (sortNodes xs)

/-- The recursive `_print` of `print_tree` (main.py lines 195-209).  The
first argument is the remaining depth budget `max_depth - depth` (so the
source's `depth >= max_depth` test is the `0` case), `path` is the
current root-to-node path and `printed` the set of fully printed nodes;
returns the emitted lines and the updated printed set. -/
def renderNode (g : Graph) : Nat → String → Nat → List String → List String →
    List String × List String
  | 0, node, depth, path, printed =>
    if node ∈ path then ([lineFor depth node " (cycle)"], printed)
    else if node ∈ printed then ([lineFor depth node " (visited)"], printed)
    else ([lineFor depth node ""], printed ++ [node])
  | rem + 1, node, depth, path, printed =>
    if node ∈ path then ([lineFor depth node " (cycle)"], printed)
    else if node ∈ printed then ([lineFor depth node " (visited)"], printed)
    else
      (sortNodes (dictGet g node)).foldl
        (fun acc child =>
          let r := renderNode g rem child (depth + 1) (path ++ [node]) acc.2
          (acc.1 ++ r.1, r.2))
        ([lineFor depth node ""], printed ++ [node])

/-- `print_tree` (main.py lines 192-211): the sequence of lines printed
for `graph` from `root` bounded by `max_depth`. -/
def print_tree (g : Graph) (root : String) (maxDepth : Nat) : List String :=
  (renderNode g maxDepth root 0 [] []).1

/-- The node census at the end of `main` (main.py lines 284-287):
`set(graph.keys())` unioned with every dependency set. -/
def total_nodes (g : Graph) : List String :=
  (g.map Prod.snd).foldl (fun acc s => s.foldl insDedup acc) (dedup (g.map Prod.fst))

/-- `len(total_nodes)` as reported by `main` (main.py line 287). -/
def total_count (g : Graph) : Nat :=
  (total_nodes g).length

/-- The relation `A -> B -> A` of the spec's cycle examples. -/
def relAB : Graph := [("A", ["B"]), ("B", ["A"])]

/-- The chain relation `A -> B -> C` of the spec's depth-truncation
example. -/
def relChain : Graph := [("A", ["B"]), ("B", ["C"])]

/-- The diamond relation of the spec's shared-subtree example. -/
def relDiamond : Graph := [("A", ["B", "C"]), ("B", ["D"]), ("C", ["D"])]

/-- Well-formedness of a parsed test graph: every node name and every
dependency name is a single uppercase ASCII letter. -/
def ValidGraph (g : Graph) : Prop :=
  ∀ p ∈ g, isUpperTok p.1 = true ∧ ∀ t ∈ p.2, isUpperTok t = true

theorem mem_insDedup {l : List String} {x y : String} :
    y ∈ insDedup l x ↔ y ∈ l ∨ y = x := by
  unfold insDedup
  split
  · constructor
    · exact Or.inl
    · rintro (hy | rfl)
      · exact hy
      · assumption
  · simp [List.mem_append]

theorem mem_foldl_insDedup {y : String} :
    ∀ {l a : List String}, y ∈ l.foldl insDedup a ↔ y ∈ a ∨ y ∈ l := by
  intro l
  induction l with
  | nil => simp
  | cons x xs ih =>
    intro a
    rw [List.foldl_cons, ih, mem_insDedup]
    simp [List.mem_cons]
    tauto

theorem nodup_insDedup {l : List String} {x : String} (h : l.Nodup) :
    (insDedup l x).Nodup := by
  unfold insDedup
  split
  · exact h
  · next hx => simp [List.nodup_append, h, hx]

theorem nodup_foldl_insDedup :
    ∀ {l a : List String}, a.Nodup → (l.foldl insDedup a).Nodup := by
  intro l
  induction l with
  | nil => exact fun h => h
  | cons x xs ih => exact fun h => ih (nodup_insDedup h)

theorem mem_dedup {l : List String} {y : String} : y ∈ dedup l ↔ y ∈ l := by
  unfold dedup
  rw [mem_foldl_insDedup]
  simp

theorem nodup_dedup (l : List String) : (dedup l).Nodup :=
  nodup_foldl_insDedup List.nodup_nil

theorem depLine_nodup {st : List String × Option (List Char)} {ln : List Char}
    (h : st.1.Nodup) : (depLine st ln).1.Nodup := by
  simp only [depLine]
  repeat' split
  all_goals first
    | exact h
    | exact nodup_insDedup h

theorem foldl_depLine_nodup :
    ∀ (lines : List (List Char)) (st : List String × Option (List Char)),
      st.1.Nodup → ((lines.foldl depLine st).1).Nodup := by
  intro lines
  induction lines with
  | nil => exact fun st h => h
  | cons l ls ih => exact fun st h => ih _ (depLine_nodup h)

theorem mem_graphSet {g : Graph} {k : String} {v : List String} {q : String × List String}
    (h : q ∈ graphSet g k v) : q ∈ g ∨ q = (k, v) := by
  unfold graphSet at h
  split at h
  · rcases List.mem_map.1 h with ⟨p, hp, he⟩
    by_cases hk : p.1 = k
    · right
      rw [← he, if_pos hk]
    · left
      rw [← he, if_neg hk]
      exact hp
  · rcases List.mem_append.1 h with h1 | h1
    · exact Or.inl h1
    · right
      simpa using h1

theorem parseGraphLines_valid :
    ∀ (lines : List String) (g g' : Graph), parseGraphLines lines g = Except.ok g' →
      ValidGraph g → ValidGraph g' := by
  intro lines
  induction lines with
  | nil =>
    intro g g' h hv
    simp only [parseGraphLines, Except.ok.injEq] at h
    exact h ▸ hv
  | cons raw more ih =>
    intro g g' h hv
    simp only [parseGraphLines] at h
    split at h
    · exact ih _ _ h hv
    · split at h
      · -- colon branch
        split at h
        · exact absurd h (by simp)
        · next hleft =>
          split at h
          · exact absurd h (by simp)
          · next hfind =>
            refine ih _ _ h ?_
            intro p hp
            rcases mem_graphSet hp with hpg | rfl
            · exact hv p hpg
            · refine ⟨by simpa using hleft, fun t ht => ?_⟩
              have ht' := mem_dedup.1 ht
              have := List.find?_eq_none.1 hfind t ht'
              simpa using this
      · -- bare-node branch
        split at h
        · exact absurd h (by simp)
        · next hnode =>
          refine ih _ _ h ?_
          intro p hp
          rcases mem_graphSet hp with hpg | rfl
          · exact hv p hpg
          · exact ⟨by simpa using hnode, by simp⟩

theorem reachableWithin_mono {get_deps : String → List String} {root : String}
    {k k' : Nat} (hk : k ≤ k') {n : String}
    (h : ReachableWithin get_deps root k n) : ReachableWithin get_deps root k' n := by
  induction hk with
  | refl => exact h
  | step _ ih => exact Or.inl ih

theorem mem_keys_graphInsert {g : Graph} {n : String} {ds : List String} {m : String}
    (h : m ∈ (graphInsert g n ds).map Prod.fst) : m ∈ g.map Prod.fst ∨ m = n := by
  unfold graphInsert at h
  split at h
  · left
    rw [List.map_map] at h
    rcases List.mem_map.1 h with ⟨p, hp, he⟩
    have hpm : p.1 = m := by
      by_cases hk : p.1 = n
      · simpa [Function.comp, hk] using he
      · simpa [Function.comp, hk] using he
    exact hpm ▸ List.mem_map_of_mem Prod.fst hp
  · rw [List.map_append] at h
    rcases List.mem_append.1 h with h1 | h1
    · exact Or.inl h1
    · right
      simpa using h1

theorem bfsRun_reach (get_deps : String → List String) (root : String) (d : Nat) :
    ∀ (fuel : Nat) (queue : List (String × Nat)) (visited : List String) (graph : Graph)
      (calls : List String),
      (∀ p ∈ queue, p.2 ≤ d ∧ ReachableWithin get_deps root p.2 p.1) →
      (∀ n ∈ graph.map Prod.fst, ReachableWithin get_deps root d n) →
      (∀ n ∈ calls, ReachableWithin get_deps root d n) →
      (∀ n ∈ (bfsRun get_deps d fuel queue visited graph calls).graph.map Prod.fst,
        ReachableWithin get_deps root d n) ∧
      (∀ n ∈ (bfsRun get_deps d fuel queue visited graph calls).calls,
        ReachableWithin get_deps root d n) := by
  intro fuel
  induction fuel with
  | zero => exact fun queue visited graph calls hq hg hc => ⟨hg, hc⟩
  | succ fuel ih =>
    intro queue visited graph calls hq hg hc
    match queue with
    | [] => exact ⟨hg, hc⟩
    | (node, depth) :: rest =>
      have hnode := hq (node, depth) (List.mem_cons_self _ _)
      simp only [bfsRun]
      split
      · exact ih rest visited graph calls
          (fun p hp => hq p (List.mem_cons_of_mem _ hp)) hg hc
      · apply ih
        · intro p hp
          rcases List.mem_append.1 hp with h1 | h1
          · exact hq p (List.mem_cons_of_mem _ h1)
          · by_cases hlt : depth < d
            · rw [if_pos hlt] at h1
              rcases List.mem_map.1 h1 with ⟨x, hx, he⟩
              have hxdeps : x ∈ get_deps node := mem_dedup.1 (List.mem_filter.1 hx).1
              rw [← he]
              exact ⟨hlt, Or.inr ⟨node, hnode.2, hxdeps⟩⟩
            · rw [if_neg hlt] at h1
              cases h1
        · intro n hn
          rcases mem_keys_graphInsert hn with h1 | rfl
          · exact hg n h1
          · exact reachableWithin_mono hnode.1 hnode.2
        · intro n hn
          rcases List.mem_append.1 hn with h1 | h1
          · exact hc n h1
          · have : n = node := by simpa using h1
            exact this ▸ reachableWithin_mono hnode.1 hnode.2

theorem mem_foldl_expand_step {get_deps : String → List String} {y : String} :
    ∀ (l acc : List String), y ∈ acc →
      y ∈ l.foldl (fun a n => (dedup (get_deps n)).foldl insDedup a) acc := by
  intro l
  induction l with
  | nil => exact fun acc h => h
  | cons x xs ih => exact fun acc h => ih _ (mem_foldl_insDedup.2 (Or.inl h))

theorem deps_mem_foldl_expand_step {get_deps : String → List String} :
    ∀ (l acc : List String) (n : String), n ∈ l →
      ∀ x ∈ dedup (get_deps n),
        x ∈ l.foldl (fun a m => (dedup (get_deps m)).foldl insDedup a) acc := by
  intro l
  induction l with
  | nil =>
    intro acc n h
    cases h
  | cons z zs ih =>
    intro acc n hn x hx
    rcases List.mem_cons.1 hn with rfl | hn'
    · exact mem_foldl_expand_step zs _ (mem_foldl_insDedup.2 (Or.inr hx))
    · exact ih _ n hn' x hx

theorem nodup_foldl_expand_step {get_deps : String → List String} :
    ∀ (l acc : List String), acc.Nodup →
      (l.foldl (fun a m => (dedup (get_deps m)).foldl insDedup a) acc).Nodup := by
  intro l
  induction l with
  | nil => exact fun acc h => h
  | cons z zs ih => exact fun acc h => ih _ (nodup_foldl_insDedup h)

theorem listUniv_nodup (get_deps : String → List String) (root : String) :
    ∀ k, (listUniv get_deps root k).Nodup := by
  intro k
  induction k with
  | zero => simp [listUniv]
  | succ k ih => exact nodup_foldl_expand_step _ _ ih

theorem listUniv_subset_succ {get_deps : String → List String} {root : String} {k : Nat}
    {n : String} (h : n ∈ listUniv get_deps root k) :
    n ∈ listUniv get_deps root (k + 1) :=
  mem_foldl_expand_step _ _ h

theorem listUniv_mono {get_deps : String → List String} {root : String} {k k' : Nat}
    (hk : k ≤ k') {n : String} (h : n ∈ listUniv get_deps root k) :
    n ∈ listUniv get_deps root k' := by
  induction hk with
  | refl => exact h
  | step _ ih => exact listUniv_subset_succ ih

theorem listUniv_closed {get_deps : String → List String} {root : String} {k : Nat}
    {n x : String} (hn : n ∈ listUniv get_deps root k) (hx : x ∈ dedup (get_deps n)) :
    x ∈ listUniv get_deps root (k + 1) :=
  deps_mem_foldl_expand_step _ _ n hn x hx

theorem sum_filter_not_mem_append {w : String → Nat} :
    ∀ (u : List String) (visited : List String) (node : String), u.Nodup → node ∈ u →
      node ∉ visited →
      ((u.filter (fun n => decide (n ∉ visited))).map w).sum =
        w node + ((u.filter (fun n => decide (n ∉ visited ++ [node]))).map w).sum := by
  intro u
  induction u with
  | nil =>
    intro visited node _ h
    cases h
  | cons a u' ih =>
    intro visited node hnd hmem hnv
    have ha : a ∉ u' := (List.nodup_cons.1 hnd).1
    rcases List.mem_cons.1 hmem with rfl | hmem'
    · have h1 : (decide (node ∉ visited)) = true := by simpa using hnv
      have h2 : (decide (node ∉ visited ++ [node])) = false := by simp
      rw [List.filter_cons, List.filter_cons, h1, h2]
      simp only [if_true, Bool.false_eq_true, if_false, List.map_cons, List.sum_cons]
      congr 2
      congr 1
      apply List.filter_congr
      intro x hx
      have hxa : x ≠ node := fun e => ha (e ▸ hx)
      simp [List.mem_append, hxa]
    · have hne : node ≠ a := fun e => ha (e ▸ hmem')
      have h2 : (decide (a ∉ visited ++ [node])) = (decide (a ∉ visited)) := by
        by_cases hav : a ∈ visited <;> simp [List.mem_append, hav, Ne.symm hne]
      rw [List.filter_cons, List.filter_cons, h2]
      have ihp := ih visited node (List.nodup_cons.1 hnd).2 hmem' hnv
      by_cases hav : a ∈ visited
      · have h3 : (decide (a ∉ visited)) = false := by simpa using hav
        rw [h3]
        simpa using ihp
      · have h3 : (decide (a ∉ visited)) = true := by simpa using hav
        rw [h3]
        simp only [if_true, List.map_cons, List.sum_cons]
        omega

theorem bfsRun_queue_nil (get_deps : String → List String) (root : String) (d : Nat) :
    ∀ (fuel : Nat) (queue : List (String × Nat)) (visited : List String) (graph : Graph)
      (calls : List String),
      (∀ p ∈ queue, p.2 ≤ d ∧ p.1 ∈ listUniv get_deps root p.2) →
      bfsWork get_deps (listUniv get_deps root d) queue visited ≤ fuel →
      (bfsRun get_deps d fuel queue visited graph calls).queue = [] := by
  intro fuel
  induction fuel with
  | zero =>
    intro queue visited graph calls hq hw
    have hlen : queue.length = 0 := by
      unfold bfsWork at hw
      omega
    rw [List.length_eq_zero.1 hlen]
    rfl
  | succ fuel ih =>
    intro queue visited graph calls hq hw
    match queue with
    | [] => simp [bfsRun]
    | (node, depth) :: rest =>
      have hnode := hq (node, depth) (List.mem_cons_self _ _)
      simp only [bfsRun]
      split
      · next hvis =>
        apply ih rest visited graph calls (fun p hp => hq p (List.mem_cons_of_mem _ hp))
        unfold bfsWork at hw ⊢
        simp only [List.length_cons] at hw
        omega
      · next hvis =>
        apply ih
        · intro p hp
          rcases List.mem_append.1 hp with h1 | h1
          · exact hq p (List.mem_cons_of_mem _ h1)
          · by_cases hlt : depth < d
            · rw [if_pos hlt] at h1
              rcases List.mem_map.1 h1 with ⟨x, hx, he⟩
              have hxdeps : x ∈ dedup (get_deps node) := (List.mem_filter.1 hx).1
              rw [← he]
              exact ⟨hlt, listUniv_closed hnode.2 hxdeps⟩
            · rw [if_neg hlt] at h1
              cases h1
        · have hmemU : node ∈ listUniv get_deps root d := listUniv_mono hnode.1 hnode.2
          have hsum := sum_filter_not_mem_append (w := nodeWeight get_deps)
            (listUniv get_deps root d) visited node (listUniv_nodup get_deps root d)
            hmemU hvis
          have henq :
              (if depth < d then
                ((dedup (get_deps node)).filter
                  (fun x => decide (x ∉ visited ++ [node]))).map (fun x => (x, depth + 1))
              else []).length ≤ (dedup (get_deps node)).length := by
            split
            · rw [List.length_map]
              exact List.length_filter_le _ _
            · simp
          have hwt : nodeWeight get_deps node = 1 + (dedup (get_deps node)).length := rfl
          unfold bfsWork at hw ⊢
          rw [hsum] at hw
          simp only [List.length_cons, List.length_append] at hw ⊢
          omega

theorem foldl_render_fst_ne_nil (g : Graph) (rem : Nat) (depth : Nat) (path : List String) :
    ∀ (children : List String) (acc : List String × List String), acc.1 ≠ [] →
      (children.foldl
        (fun acc child =>
          let r := renderNode g rem child depth path acc.2
          (acc.1 ++ r.1, r.2)) acc).1 ≠ [] := by
  intro children
  induction children with
  | nil => exact fun acc h => h
  | cons c cs ih =>
    intro acc h
    apply ih
    exact fun hc => h (List.append_eq_nil.1 hc).1

theorem renderNode_fst_ne_nil (g : Graph) :
    ∀ (rem : Nat) (node : String) (depth : Nat) (path printed : List String),
      (renderNode g rem node depth path printed).1 ≠ [] := by
  intro rem node depth path printed
  cases rem with
  | zero =>
    simp only [renderNode]
    split
    · simp
    · split <;> simp
  | succ rem =>
    simp only [renderNode]
    split
    · simp
    · split
      · simp
      · exact foldl_render_fst_ne_nil g rem (depth + 1) (path ++ [node]) _ _ (by simp)

theorem renderNode_missing (g : Graph) (rem : Nat) (node : String) (depth : Nat)
    (path printed : List String) (hmiss : List.lookup node g = none)
    (hp : node ∉ path) (hpr : node ∉ printed) :
    renderNode g rem node depth path printed = ([lineFor depth node ""], printed ++ [node]) := by
  cases rem with
  | zero => simp [renderNode, hp, hpr]
  | succ rem => simp [renderNode, hp, hpr, dictGet, hmiss, sortNodes]

/-- C1 counterexample: for the relation `A -> B -> C` and `max_depth = 1`,
the total node count reported at the end of the run (keys of the built
mapping unioned with all its dependency-set values) is not 2 — node `C`
is recorded as a dependency of `B`, which is queried at depth 1, so the
census counts `A`, `B` and `C`. -/
theorem c1_count_counterexample :
    total_count (build_bfs_graph "A" (relFun relChain) 1) ≠ 2 := by
  decide

/-- C1 (amended): for the relation `A -> B, B -> C` and `max_depth = 1`,
the rendered tree consists of exactly the lines for `A` and `B` (so `C`
is not shown), and the total node count reported at the end of the run
is 3 (the union of the keys `A`, `B` with the value sets `B`, `C`). -/
theorem c1_depth_truncation :
    print_tree (build_bfs_graph "A" (relFun relChain) 1) "A" 1 = ["A", "    └─ B"] ∧
    total_count (build_bfs_graph "A" (relFun relChain) 1) = 3 :=
  ⟨rfl, rfl⟩

/-- C2: for every query function, root and `max_depth = d ≥ 1`, every
node in the mapping returned by `build_bfs_graph` (its keys, which are
exactly the queried nodes) is reachable from the root within at most `d`
hops, and the query callback is only invoked on nodes whose BFS distance
from the root is at most `d`. -/
theorem c2_depth_bound (get_deps : String → List String) (root : String) (d : Nat)
    (_hd : 1 ≤ d) :
    (∀ n ∈ (build_bfs_graph root get_deps d).map Prod.fst,
      ReachableWithin get_deps root d n) ∧
    (∀ n ∈ (build_bfs_run root get_deps d).calls,
      ReachableWithin get_deps root d n) := by
  apply bfsRun_reach get_deps root d (bfsFuel get_deps root d) [(root, 0)] [] [] []
  · intro p hp
    have hp0 : p = (root, 0) := by simpa using hp
    rw [hp0]
    exact ⟨Nat.zero_le d, rfl⟩
  · intro n hn
    simp at hn
  · intro n hn
    simp at hn

theorem c2_depth_bound_witness : ReachableWithin (relFun relAB) "A" 1 "B" :=
  (c2_depth_bound (relFun relAB) "A" 1 (by decide)).1 "B" (by decide)

/-- C3: for every finite relation, root and `max_depth = d ≥ 1`, the BFS
loop of `build_bfs_graph` (with the relation as query function)
genuinely terminates — its queue is exhausted within the allotted fuel —
and `print_tree` on the built relation is total and produces output, on
any graph shape including cycles and self-loops. -/
theorem c3_totality (rel : Graph) (root : String) (d : Nat) (_hd : 1 ≤ d) :
    (build_bfs_run root (relFun rel) d).queue = [] ∧
    print_tree (build_bfs_graph root (relFun rel) d) root d ≠ [] := by
  constructor
  · apply bfsRun_queue_nil (relFun rel) root d
    · intro p hp
      have hp0 : p = (root, 0) := by simpa using hp
      rw [hp0]
      refine ⟨Nat.zero_le d, ?_⟩
      simp [listUniv]
    · unfold bfsWork bfsFuel
      have hfil : (listUniv (relFun rel) root d).filter
          (fun n => decide (n ∉ ([] : List String))) = listUniv (relFun rel) root d := by
        apply List.filter_eq_self.2
        intro a _
        simp
      rw [hfil]
      simp
  · exact renderNode_fst_ne_nil _ _ _ _ _ _

theorem c3_totality_witness :
    (build_bfs_run "A" (relFun relAB) 2).queue = [] ∧
    print_tree (build_bfs_graph "A" (relFun relAB) 2) "A" 2 ≠ [] :=
  c3_totality relAB "A" 2 (by decide)

/-- C4: for the cyclic relation `A -> B, B -> A`, root `A` and
`max_depth = 5`, the BFS terminates (empty queue), returns exactly the
mapping `A -> B, B -> A`, and invokes the query callback exactly once
per node: once on `A`, once on `B`. -/
theorem c4_cycle_bfs :
    (build_bfs_run "A" (relFun relAB) 5).graph = [("A", ["B"]), ("B", ["A"])] ∧
    (build_bfs_run "A" (relFun relAB) 5).calls = ["A", "B"] ∧
    (build_bfs_run "A" (relFun relAB) 5).queue = [] :=
  ⟨rfl, rfl, rfl⟩

/-- C5: for the relation `A -> B, B -> A` and any `max_depth ≥ 2`,
rendering from `A` prints exactly `A` at depth 0, `B` indented at depth
1, and `A (cycle)` at depth 2; the second `A` is not expanded (no
further lines follow it). -/
theorem c5_cycle_render (d : Nat) (hd : 2 ≤ d) :
    print_tree relAB "A" d = ["A", "    └─ B", "        └─ A (cycle)"] := by
  obtain ⟨k, rfl⟩ : ∃ k, d = k + 2 := ⟨d - 2, by omega⟩
  cases k with
  | zero => rfl
  | succ j => rfl

theorem c5_cycle_render_witness :
    2 ≤ 2 ∧ print_tree relAB "A" 2 = ["A", "    └─ B", "        └─ A (cycle)"] :=
  ⟨by decide, c5_cycle_render 2 (by decide)⟩

/-- C6: for the relation `A -> B C, B -> D, C -> D` and any
`max_depth ≥ 2`, rendering from `A` visits children in sorted
lexicographic order (`B` before `C`), prints `D` fully exactly once
(under `B`) and prints `D (visited)` under `C` without recursing into
`D` again. -/
theorem c6_shared_subtree (d : Nat) (hd : 2 ≤ d) :
    print_tree relDiamond "A" d =
      ["A", "    └─ B", "        └─ D", "    └─ C", "        └─ D (visited)"] := by
  obtain ⟨k, rfl⟩ : ∃ k, d = k + 2 := ⟨d - 2, by omega⟩
  cases k with
  | zero => rfl
  | succ j => rfl

theorem c6_shared_subtree_witness :
    2 ≤ 3 ∧ print_tree relDiamond "A" 3 =
      ["A", "    └─ B", "        └─ D", "    └─ C", "        └─ D (visited)"] :=
  ⟨by decide, c6_shared_subtree 3 (by decide)⟩

/-- C7: `parse_direct_deps` is total over all input text and always
returns a set of strings (modelled as a duplicate-free list); the empty
document yields the empty set.  Malformed lines are simply skipped by
the line classifier, so they only reduce the number of extracted
entries; no input is rejected. -/
theorem c7_manifest_total :
    (∀ text : String, (parse_direct_deps text).Nodup) ∧ parse_direct_deps "" = [] :=
  ⟨fun _ => foldl_depLine_nodup _ _ List.nodup_nil, rfl⟩

/-- C8: concrete manifest extractions: a `[dependencies]` section with
keys `foo` and `bar` yields exactly the set containing `foo` and `bar`; a
bare `[dependencies.baz]` header contributes `baz` even though its body
declares no keys; text of only comments and blank lines yields the empty
set. -/
theorem c8_parse_examples :
    parse_direct_deps "[dependencies]\nfoo = \"1.0\"\nbar = \"2\"" = ["foo", "bar"] ∧
    "baz" ∈ parse_direct_deps "[dependencies.baz]\nversion = \"1\"" ∧
    parse_direct_deps "# only comments\n\n   \n# more" = [] := by
  refine ⟨by decide, by decide, by decide⟩

/-- C9: loading the test-graph line `a: B` fails with a malformed-graph
error whose message names the offending token `a`; and in general a
successful parse guarantees that every node and dependency token is a
single uppercase ASCII letter — any other token makes the parse fail. -/
theorem c9_test_graph_validation :
    parse_test_graph "graph.txt" ["a: B"] =
      Except.error ("Ошибка при чтении тестового графа graph.txt: " ++ badNodeMsg "a") ∧
    (∀ (path : String) (lines : List String) (g : Graph),
      parse_test_graph path lines = Except.ok g → ValidGraph g) := by
  refine ⟨rfl, fun path lines g h => ?_⟩
  unfold parse_test_graph at h
  split at h
  · next g0 heq =>
    have hgg : g0 = g := by simpa using h
    exact hgg ▸ parseGraphLines_valid lines [] g0 heq (fun p hp => by cases hp)
  · simp at h

theorem c9_test_graph_validation_witness :
    isUpperTok "A" = true ∧ isUpperTok "B" = true := by
  have h := c9_test_graph_validation.2 "g.txt" ["A: B"] [("A", ["B"])] rfl
  have h2 := h ("A", ["B"]) (by simp)
  exact ⟨h2.1, h2.2 "B" (by simp)⟩

/-- C10: when the renderer visits a node that is absent from the
relation mapping (one never recorded as a key), the node is printed as a
plain leaf — a single line, no children expanded — and the walk
continues without error; a missing entry behaves as an empty dependency
set.  In particular `print_tree` on such a root prints just the root
line. -/
theorem c10_missing_node_leaf (g : Graph) (node : String) (rem depth d : Nat)
    (path printed : List String) (hmiss : List.lookup node g = none)
    (hp : node ∉ path) (hpr : node ∉ printed) :
    renderNode g rem node depth path printed = ([lineFor depth node ""], printed ++ [node]) ∧
    print_tree g node d = [lineFor 0 node ""] := by
  refine ⟨renderNode_missing g rem node depth path printed hmiss hp hpr, ?_⟩
  unfold print_tree
  rw [renderNode_missing g d node 0 [] [] hmiss (by simp) (by simp)]

theorem c10_missing_node_leaf_witness :
    renderNode relAB 3 "X" 1 ["A"] ["A"] = ([lineFor 1 "X" ""], ["A", "X"]) ∧
    print_tree relAB "X" 2 = [lineFor 0 "X" ""] :=
  c10_missing_node_leaf relAB "X" 3 1 2 ["A"] ["A"] rfl (by decide) (by decide)
